import Mathlib

/-!
Verification model for the `tauri-todo` repository.

The repository has two algorithmic cores:
* `src/todotxt/src/lib.rs` — the task list: `TodoItem` wraps a
  `todo_txt::task::Simple` (an external crate; its parse/render behaviour is
  modelled here from the specification), and `TodoList` holds an ordered
  `Vec<TodoItem>`, an `Option<PathBuf>` binding, and a `next_id` counter.
* `src/gui/src/project_tree.rs` — `build_project_tree`, folding the project
  tags of the displayed items into a forest of `ProjectNode`s using a
  `BTreeMap<String, TempNode>` at every level.

Rust strings are modelled as `List Char`; `BTreeMap<String, _>` is modelled as
an association list kept strictly sorted by the lexicographic order on
`List Char`, which matches the byte order `BTreeMap` uses on the ASCII keys
involved.
-/

set_option linter.unusedVariables false

/-! ### Task Record: parse and render (modelled from the spec)

`TodoItem::new` delegates to `todo_txt::task::Simple::from`, and
`TodoItem::raw` / `Display` delegate to the crate's `Display`.  That crate is
not part of this repository, so the line grammar below is modelled from the
specification (§4.1, §6): an optional completion marker `x ` at the start of
the line, followed (when present) by an optional completion date and an
optional creation date, then — only when the task is not completed — an
optional priority marker `(A) `; the remainder is the subject, scanned for
whitespace-delimited tokens beginning with `@` (contexts) or `+` (projects),
kept in order with duplicates. -/

def isDigitCh (c : Char) : Bool := '0' ≤ c && c ≤ '9'

def isUpperCh (c : Char) : Bool := 'A' ≤ c && c ≤ 'Z'

/-- Modelled from the spec: a date token of the persistent format, ten
characters shaped `NNNN-NN-NN`. -/
def isDateChars : List Char → Bool
  | [a, b, c, d, e, f, g, h, i, j] =>
      isDigitCh a && isDigitCh b && isDigitCh c && isDigitCh d && (e == '-') &&
      isDigitCh f && isDigitCh g && (h == '-') && isDigitCh i && isDigitCh j
  | _ => false

/-- Modelled from the spec: consume one leading date followed by a space,
returning it and the rest; on no match return the input unchanged. -/
def takeDate : List Char → Option (List Char) × List Char
  | a :: b :: c :: d :: e :: f :: g :: h :: i :: j :: ' ' :: rest =>
      if isDateChars [a, b, c, d, e, f, g, h, i, j] then
        (some [a, b, c, d, e, f, g, h, i, j], rest)
      else
        (none, a :: b :: c :: d :: e :: f :: g :: h :: i :: j :: ' ' :: rest)
  | s => (none, s)

/-- Modelled from the spec: consume a leading priority marker `(A) `
(uppercase letter only), returning it and the rest. -/
def takePriority : List Char → Option Char × List Char
  | '(' :: c :: ')' :: ' ' :: rest =>
      if isUpperCh c then (some c, rest)
      else (none, '(' :: c :: ')' :: ' ' :: rest)
  | s => (none, s)

/-- Modelled from the spec: after the completion marker, an optional
completion date and, only after one was seen, an optional creation date. -/
def parseAfterX (s : List Char) : Option (List Char) × Option (List Char) × List Char :=
  match takeDate s with
  | (none, r) => (none, none, r)
  | (some d1, r1) =>
    match takeDate r1 with
    | (none, r) => (some d1, none, r)
    | (some d2, r2) => (some d1, some d2, r2)

/-- Split a subject into space-delimited tokens (the scan used for tags). -/
def splitSpaces : List Char → List (List Char)
  | [] => [[]]
  | ' ' :: rest => [] :: splitSpaces rest
  | c :: rest =>
    match splitSpaces rest with
    | [] => [[c]]
    | w :: ws => (c :: w) :: ws

/-- Tokens of the subject beginning with the given marker, marker stripped,
in order of appearance, duplicates kept. -/
def extractTags (marker : Char) (s : List Char) : List (List Char) :=
  (splitSpaces s).filterMap fun w =>
    match w with
    | [] => none
    | c :: rest => if c = marker then some rest else none

/-- Model of `todo_txt::task::Simple` as exposed through the accessors of
`TodoItem` in `src/todotxt/src/lib.rs`: subject, finished, priority,
contexts, projects, plus the two optional dates of the persistent format. -/
structure Simple where
  subject : List Char
  finished : Bool
  priority : Option Char
  completionDate : Option (List Char)
  creationDate : Option (List Char)
  contexts : List (List Char)
  projects : List (List Char)
deriving DecidableEq

def mkTask (fin : Bool) (pr : Option Char) (cd cr : Option (List Char))
    (subj : List Char) : Simple :=
  { subject := subj, finished := fin, priority := pr, completionDate := cd,
    creationDate := cr, contexts := extractTags '@' subj,
    projects := extractTags '+' subj }

/-- Modelled from the spec: `Parse(line) → Task Record` (§4.1); the behaviour
of `todo_txt::task::Simple::from`, which `TodoItem::new` and the list loader
delegate to. -/
def parseTask : List Char → Simple
  | 'x' :: ' ' :: rest =>
    match parseAfterX rest with
    | (cd, cr, subj) => mkTask true none cd cr subj
  | line =>
    match takePriority line with
    | (pr, subj) => mkTask false pr none none subj

def renderDate : Option (List Char) → List Char
  | none => []
  | some d => d ++ [' ']

/-- Modelled from the spec: `Render() → text` (§4.1, §6 field order); the
behaviour of the crate's `Display`, which `TodoItem::raw` delegates to. -/
def renderTask (t : Simple) : List Char :=
  match t.finished, t.priority with
  | true, _ =>
      'x' :: ' ' :: (renderDate t.completionDate ++ renderDate t.creationDate ++ t.subject)
  | false, some c => '(' :: c :: ')' :: ' ' :: t.subject
  | false, none => t.subject

/-- Does a line carry the completion marker? -/
def startsX : List Char → Bool
  | 'x' :: ' ' :: _ => true
  | _ => false

lemma startsX_iff (l : List Char) : startsX l = true ↔ ∃ rest, l = 'x' :: ' ' :: rest := by
  unfold startsX
  split
  · rename_i rest
    simp
  · rename_i h
    constructor
    · intro hc
      exact absurd hc (by simp)
    · rintro ⟨rest, hrest⟩
      exact absurd hrest (h rest)

lemma takeDate_none_snd {s r : List Char} (h : takeDate s = (none, r)) : r = s := by
  unfold takeDate at h
  split at h
  · split at h
    · exact absurd h (by simp)
    · simp only [Prod.mk.injEq] at h
      exact h.2.symm
  · simp only [Prod.mk.injEq] at h
    exact h.2.symm

lemma takeDate_some {s d r : List Char} (h : takeDate s = (some d, r)) :
    isDateChars d = true ∧ s = d ++ ' ' :: r := by
  unfold takeDate at h
  split at h
  · split at h
    · rename_i hdate
      simp only [Prod.mk.injEq, Option.some.injEq] at h
      obtain ⟨h1, h2⟩ := h
      subst h1; subst h2
      exact ⟨hdate, rfl⟩
    · exact absurd h (by simp)
  · exact absurd h (by simp)

lemma takeDate_of_date {d : List Char} (hd : isDateChars d = true) (s : List Char) :
    takeDate (d ++ ' ' :: s) = (some d, s) := by
  rcases d with _ | ⟨a, _ | ⟨b, _ | ⟨c, _ | ⟨d0, _ | ⟨e, _ | ⟨f, _ | ⟨g, _ | ⟨h, _ | ⟨i,
      _ | ⟨j, _ | ⟨k, tl⟩⟩⟩⟩⟩⟩⟩⟩⟩⟩⟩ <;>
    simp_all [isDateChars, takeDate]

lemma takePriority_none_snd {s r : List Char} (h : takePriority s = (none, r)) : r = s := by
  unfold takePriority at h
  split at h
  · split at h
    · exact absurd h (by simp)
    · simp only [Prod.mk.injEq] at h
      exact h.2.symm
  · simp only [Prod.mk.injEq] at h
    exact h.2.symm

lemma takePriority_some {s r : List Char} {c : Char}
    (h : takePriority s = (some c, r)) :
    isUpperCh c = true ∧ s = '(' :: c :: ')' :: ' ' :: r := by
  unfold takePriority at h
  split at h
  · split at h
    · rename_i hup
      simp only [Prod.mk.injEq, Option.some.injEq] at h
      obtain ⟨h1, h2⟩ := h
      subst h1; subst h2
      exact ⟨hup, rfl⟩
    · exact absurd h (by simp)
  · exact absurd h (by simp)

lemma parseAfterX_render {s subj : List Char} {cd cr : Option (List Char)}
    (h : parseAfterX s = (cd, cr, subj)) :
    parseAfterX (renderDate cd ++ renderDate cr ++ subj) = (cd, cr, subj) := by
  rcases h1 : takeDate s with ⟨o1, r1⟩
  simp only [parseAfterX, h1] at h
  rcases o1 with _ | d1
  · simp only [Prod.mk.injEq] at h
    obtain ⟨hcd, hcr, hsubj⟩ := h
    have hr1 : r1 = s := takeDate_none_snd h1
    subst hcd; subst hcr; subst hsubj; subst hr1
    simp only [renderDate, List.nil_append]
    simp only [parseAfterX, h1]
  · obtain ⟨hd1, hs1⟩ := takeDate_some h1
    rcases h2 : takeDate r1 with ⟨o2, r2⟩
    simp only [h2] at h
    rcases o2 with _ | d2
    · simp only [Prod.mk.injEq] at h
      obtain ⟨hcd, hcr, hsubj⟩ := h
      have hr2 : r2 = r1 := takeDate_none_snd h2
      subst hcd; subst hcr; subst hsubj; subst hr2
      have hshape : renderDate (some d1) ++ renderDate none ++ r2 = d1 ++ ' ' :: r2 := by
        simp [renderDate]
      rw [hshape]
      simp only [parseAfterX, takeDate_of_date hd1, h2]
    · obtain ⟨hd2, hs2⟩ := takeDate_some h2
      simp only [Prod.mk.injEq] at h
      obtain ⟨hcd, hcr, hsubj⟩ := h
      subst hcd; subst hcr; subst hsubj
      have hshape : renderDate (some d1) ++ renderDate (some d2) ++ r2 =
          d1 ++ ' ' :: (d2 ++ ' ' :: r2) := by
        simp [renderDate]
      rw [hshape]
      simp only [parseAfterX, takeDate_of_date hd1, takeDate_of_date hd2]

lemma parseTask_x_eq (rest : List Char) :
    parseTask ('x' :: ' ' :: rest) =
      (match parseAfterX rest with
       | (cd, cr, subj) => mkTask true none cd cr subj) := rfl

lemma parseTask_not_x {line : List Char} (h : ∀ rest, line ≠ 'x' :: ' ' :: rest) :
    parseTask line =
      (match takePriority line with
       | (pr, subj) => mkTask false pr none none subj) := by
  unfold parseTask
  split
  · rename_i rest
    exact absurd rfl (h rest)
  · rfl

lemma parse_render_parse (x : List Char) :
    parseTask (renderTask (parseTask x)) = parseTask x := by
  by_cases hx : startsX x = true
  · obtain ⟨rest, hrest⟩ := (startsX_iff x).1 hx
    subst hrest
    rcases hp : parseAfterX rest with ⟨cd, cr, subj⟩
    rw [parseTask_x_eq rest, hp]
    have e2 : renderTask (mkTask true none cd cr subj) =
        'x' :: ' ' :: (renderDate cd ++ renderDate cr ++ subj) := rfl
    rw [e2, parseTask_x_eq, parseAfterX_render hp]
  · have hne : ∀ rest, x ≠ 'x' :: ' ' :: rest := by
      intro r hr
      exact hx ((startsX_iff x).2 ⟨r, hr⟩)
    rw [parseTask_not_x hne]
    rcases hq : takePriority x with ⟨pr, subj⟩
    dsimp only
    rcases pr with _ | c
    · have hsub : subj = x := takePriority_none_snd hq
      subst hsub
      have e2 : renderTask (mkTask false none none none subj) = subj := rfl
      rw [e2, parseTask_not_x hne, hq]
    · obtain ⟨hup, hxeq⟩ := takePriority_some hq
      have e2 : renderTask (mkTask false (some c) none none subj) =
          '(' :: c :: ')' :: ' ' :: subj := rfl
      rw [e2]
      have hne2 : ∀ rest, ('(' :: c :: ')' :: ' ' :: subj) ≠ 'x' :: ' ' :: rest := by
        intro r hcontra
        simp at hcontra
      rw [parseTask_not_x hne2]
      have hstep : takePriority ('(' :: c :: ')' :: ' ' :: subj) = (some c, subj) := by
        simp [takePriority, hup]
      rw [hstep]

/-- C1: for every line `x`, rendering the record obtained by parsing `x`
yields a line semantically equivalent to `x`: re-parsing the render gives the
same `finished` flag, the same `priority`, the same ordered `contexts` and
`projects` sequences (duplicates kept), and the same subject text.  This is
proved for every line, which covers every well-formed line. -/
theorem round_trip_semantic (x : List Char) :
    (parseTask (renderTask (parseTask x))).finished = (parseTask x).finished ∧
    (parseTask (renderTask (parseTask x))).priority = (parseTask x).priority ∧
    (parseTask (renderTask (parseTask x))).contexts = (parseTask x).contexts ∧
    (parseTask (renderTask (parseTask x))).projects = (parseTask x).projects ∧
    (parseTask (renderTask (parseTask x))).subject = (parseTask x).subject := by
  rw [parse_render_parse x]
  exact ⟨rfl, rfl, rfl, rfl, rfl⟩

/-! ### Task list: `TodoItem` and `TodoList` (`src/todotxt/src/lib.rs`) -/

/-- Modelled from the spec: `complete()` toggles `finished` on (§4.1); the
completion-date bookkeeping done by the external crate is independent of the
tag and priority fields and is not tracked by this mutation. -/
def Simple.complete (t : Simple) : Simple := { t with finished := true }

/-- Modelled from the spec: `uncomplete()` toggles `finished` off (§4.1). -/
def Simple.uncomplete (t : Simple) : Simple := { t with finished := false }

/-- `TodoItem`: a parsed line plus its list-assigned id. -/
structure TodoItem where
  inner : Simple
  id : Nat
deriving DecidableEq

/-- `TodoItem::new`: parse the subject line; id starts at 0. -/
def TodoItem.new (subject : List Char) : TodoItem := ⟨parseTask subject, 0⟩

/-- `TodoItem::set_subject`: writes the subject field only. -/
def TodoItem.set_subject (it : TodoItem) (s : List Char) : TodoItem :=
  ⟨{ it.inner with subject := s }, it.id⟩

def TodoItem.complete (it : TodoItem) : TodoItem := ⟨it.inner.complete, it.id⟩

def TodoItem.uncomplete (it : TodoItem) : TodoItem := ⟨it.inner.uncomplete, it.id⟩

/-- `TodoItem::raw` / `Display`: render the wrapped task. -/
def TodoItem.raw (it : TodoItem) : List Char := renderTask it.inner

/-- `TodoList`: ordered items, optional bound path, id counter. -/
structure TodoList where
  items : List TodoItem
  path : Option (List Char)
  next_id : Nat
deriving DecidableEq

/-- `TodoList::new`. -/
def TodoList.new : TodoList := ⟨[], none, 1⟩

/-- `TodoList::add`: parse the subject, append with id `next_id`, bump
`next_id`, return the assigned id.  The Rust signature returns a plain
`usize`: there is no error case. -/
def TodoList.add (l : TodoList) (subject : List Char) : TodoList × Nat :=
  (⟨l.items ++ [⟨parseTask subject, l.next_id⟩], l.path, l.next_id + 1⟩, l.next_id)

/-- The `position`/`Vec::remove` pair of `TodoList::remove`: drop the first
item with the given id, keeping the rest in order. -/
def removeFirst : List TodoItem → Nat → List TodoItem × Option TodoItem
  | [], _ => ([], none)
  | it :: rest, i =>
    if it.id = i then (rest, some it)
    else ((removeFirst rest i).1.cons it, (removeFirst rest i).2)

/-- `TodoList::remove`. -/
def TodoList.remove (l : TodoList) (i : Nat) : TodoList × Option TodoItem :=
  (⟨(removeFirst l.items i).1, l.path, l.next_id⟩, (removeFirst l.items i).2)

/-- The `get_mut` + in-place mutation pattern of `TodoList::complete` and
`TodoList::uncomplete`: apply `f` to the first item with the given id and
report whether one was found. -/
def updateFirst (f : TodoItem → TodoItem) : List TodoItem → Nat → List TodoItem × Bool
  | [], _ => ([], false)
  | it :: rest, i =>
    if it.id = i then (f it :: rest, true)
    else ((updateFirst f rest i).1.cons it, (updateFirst f rest i).2)

/-- `TodoList::complete`: toggles the matching item, returns the success
flag (`false` is the `NotFound` outcome). -/
def TodoList.complete (l : TodoList) (i : Nat) : TodoList × Bool :=
  (⟨(updateFirst TodoItem.complete l.items i).1, l.path, l.next_id⟩,
   (updateFirst TodoItem.complete l.items i).2)

/-- `TodoList::uncomplete`. -/
def TodoList.uncomplete (l : TodoList) (i : Nat) : TodoList × Bool :=
  (⟨(updateFirst TodoItem.uncomplete l.items i).1, l.path, l.next_id⟩,
   (updateFirst TodoItem.uncomplete l.items i).2)

/-- `TodoList::get`: linear scan for the first item with the id. -/
def TodoList.get (l : TodoList) (i : Nat) : Option TodoItem :=
  l.items.find? fun it => it.id == i

/-- Rust `str::trim`, on whitespace characters. -/
def trimChars (s : List Char) : List Char :=
  ((s.dropWhile Char.isWhitespace).reverse.dropWhile Char.isWhitespace).reverse

/-- One iteration of the `TodoList::from_file` loading loop: trim the line,
skip it when blank, otherwise parse and append with the next id. -/
def fromLinesStep (l : TodoList) (line : List Char) : TodoList :=
  if trimChars line = [] then l
  else ⟨l.items ++ [⟨parseTask (trimChars line), l.next_id⟩], l.path, l.next_id + 1⟩

/-- `TodoList::from_file`, with the file content already split into lines
(the `fs::read_to_string` / `lines()` part is I/O): binds the path, then
folds the loader loop over the lines starting from `next_id = 1`. -/
def TodoList.from_lines (p : List Char) (lines : List (List Char)) : TodoList :=
  lines.foldl fromLinesStep ⟨[], some p, 1⟩

/-- The variants of `std::io::ErrorKind` relevant to this model.  The code
constructs only `NotFound`; file-system failures would surface as the other
kinds. -/
inductive IoErrorKind where
  | NotFound
  | PermissionDenied
  | Other
deriving DecidableEq

/-- An `std::io::Error`: a kind plus a message. -/
structure IoError where
  kind : IoErrorKind
  msg : String
deriving DecidableEq

/-- The file system as a path-to-content map. -/
def FileSystem := List (List Char × List Char)

/-- `fs::write`: overwrite the file at the path (create it if absent). -/
def writeFile : FileSystem → List Char → List Char → FileSystem
  | [], p, content => [(p, content)]
  | (q, c) :: rest, p, content =>
    if q = p then (p, content) :: rest
    else (q, c) :: writeFile rest p content

/-- The rendered whole-list content of `TodoList::save_to`: each item
rendered, joined with newlines. -/
def renderList (l : TodoList) : List Char :=
  List.intercalate ['\n'] (l.items.map fun it => renderTask it.inner)

/-- `TodoList::save_to`: write the full rendered list; the bound path is not
consulted or changed. -/
def TodoList.save_to (l : TodoList) (p : List Char) (fs : FileSystem) :
    Option IoError × FileSystem :=
  (none, writeFile fs p (renderList l))

/-- `TodoList::save`: requires a bound path; on an unbound list it returns
`std::io::Error::new(std::io::ErrorKind::NotFound, "no file path set")`
without touching the file system. -/
def TodoList.save (l : TodoList) (fs : FileSystem) : Option IoError × FileSystem :=
  match l.path with
  | none => (some ⟨IoErrorKind.NotFound, "no file path set"⟩, fs)
  | some p => l.save_to p fs

/-- C2: `add` always succeeds (its result type has no error component), it
returns the current `next_id`, appends exactly one record carrying that id at
the end — leaving the existing records and their order unchanged — increments
`next_id`, and leaves the bound path alone. -/
theorem add_appends_and_returns_next_id (l : TodoList) (s : List Char) :
    (TodoList.add l s).2 = l.next_id ∧
    (TodoList.add l s).1.items = l.items ++ [⟨parseTask s, l.next_id⟩] ∧
    (TodoList.add l s).1.next_id = l.next_id + 1 ∧
    (TodoList.add l s).1.path = l.path :=
  ⟨rfl, rfl, rfl, rfl⟩

lemma updateFirst_absent (f : TodoItem → TodoItem) {xs : List TodoItem} {i : Nat}
    (h : ∀ it ∈ xs, it.id ≠ i) : updateFirst f xs i = (xs, false) := by
  induction xs with
  | nil => rfl
  | cons it rest ih =>
    have hid : it.id ≠ i := h it (List.mem_cons_self it rest)
    have hr := ih fun u hu => h u (List.mem_cons_of_mem it hu)
    simp [updateFirst, hid, hr]

/-- C4: `complete(id)` and `uncomplete(id)` on an id held by no record return
`false` (the `NotFound` outcome) and leave the list entirely unchanged:
records, order, fields, `next_id` and the bound path. -/
theorem complete_absent_id_not_found (l : TodoList) (i : Nat)
    (h : ∀ it ∈ l.items, it.id ≠ i) :
    TodoList.complete l i = (l, false) ∧ TodoList.uncomplete l i = (l, false) := by
  constructor
  · show (⟨(updateFirst TodoItem.complete l.items i).1, l.path, l.next_id⟩,
        (updateFirst TodoItem.complete l.items i).2) = (l, false)
    rw [updateFirst_absent TodoItem.complete h]
  · show (⟨(updateFirst TodoItem.uncomplete l.items i).1, l.path, l.next_id⟩,
        (updateFirst TodoItem.uncomplete l.items i).2) = (l, false)
    rw [updateFirst_absent TodoItem.uncomplete h]

theorem complete_absent_id_not_found_witness :
    (∀ it ∈ TodoList.new.items, it.id ≠ 5) ∧
    TodoList.complete TodoList.new 5 = (TodoList.new, false) ∧
    TodoList.uncomplete TodoList.new 5 = (TodoList.new, false) := by
  have h : ∀ it ∈ TodoList.new.items, it.id ≠ 5 := by
    intro it hit
    simp [TodoList.new] at hit
  exact ⟨h, (complete_absent_id_not_found TodoList.new 5 h).1,
    (complete_absent_id_not_found TodoList.new 5 h).2⟩

/-- C6: completing or uncompleting a task record changes at most the
`finished` flag; `contexts`, `projects` and `priority` (and the subject) are
exactly preserved, as is the record's id. -/
theorem complete_uncomplete_preserve_tags (it : TodoItem) :
    it.complete.inner.contexts = it.inner.contexts ∧
    it.complete.inner.projects = it.inner.projects ∧
    it.complete.inner.priority = it.inner.priority ∧
    it.complete.inner.subject = it.inner.subject ∧
    it.complete.id = it.id ∧
    it.uncomplete.inner.contexts = it.inner.contexts ∧
    it.uncomplete.inner.projects = it.inner.projects ∧
    it.uncomplete.inner.priority = it.inner.priority ∧
    it.uncomplete.inner.subject = it.inner.subject ∧
    it.uncomplete.id = it.id ∧
    it.complete.inner.finished = true ∧
    it.uncomplete.inner.finished = false :=
  ⟨rfl, rfl, rfl, rfl, rfl, rfl, rfl, rfl, rfl, rfl, rfl, rfl⟩

/-- C10: `set_subject` replaces the subject text and leaves `finished`,
`priority`, `contexts` and `projects` (and the id) untouched: the
implementation writes the subject field only, so tags derived at parse time
are never re-derived by a subject write. -/
theorem set_subject_frame (it : TodoItem) (s : List Char) :
    (it.set_subject s).inner.subject = s ∧
    (it.set_subject s).inner.finished = it.inner.finished ∧
    (it.set_subject s).inner.priority = it.inner.priority ∧
    (it.set_subject s).inner.contexts = it.inner.contexts ∧
    (it.set_subject s).inner.projects = it.inner.projects ∧
    (it.set_subject s).id = it.id :=
  ⟨rfl, rfl, rfl, rfl, rfl, rfl⟩

/-- C5 counterexample: on a list whose path was never bound, `save` fails
with an `std::io::Error` whose kind is `NotFound` — the very kind the claim
requires the failure to be distinct from — carrying the message
`"no file path set"`; no distinct `NotBound` kind exists in the code.  The
file system is untouched. -/
theorem save_unbound_uses_not_found_kind :
    (TodoList.save ⟨[], none, 1⟩ []).1 =
      some ⟨IoErrorKind.NotFound, "no file path set"⟩ ∧
    (TodoList.save ⟨[], none, 1⟩ []).2 = ([] : FileSystem) :=
  ⟨rfl, rfl⟩

/-- C5 as amended: `save()` on a list with no bound path fails — with an io
error of kind `NotFound` and message `"no file path set"`, the code reusing
the io `NotFound` kind rather than a distinct `NotBound` kind — and writes
nothing; with a bound path it overwrites that path with the full rendered
list. -/
theorem save_behaviour (l : TodoList) (fs : FileSystem) :
    (l.path = none →
      TodoList.save l fs = (some ⟨IoErrorKind.NotFound, "no file path set"⟩, fs)) ∧
    (∀ p, l.path = some p →
      TodoList.save l fs = (none, writeFile fs p (renderList l))) := by
  constructor
  · intro h
    unfold TodoList.save
    rw [h]
  · intro p h
    unfold TodoList.save
    rw [h]
    rfl

theorem save_behaviour_witness :
    TodoList.save ⟨[], none, 1⟩ [] =
      (some ⟨IoErrorKind.NotFound, "no file path set"⟩, ([] : FileSystem)) ∧
    TodoList.save ⟨[], some ['p'], 1⟩ [] =
      (none, writeFile [] ['p'] (renderList ⟨[], some ['p'], 1⟩)) :=
  ⟨(save_behaviour ⟨[], none, 1⟩ []).1 rfl,
   (save_behaviour ⟨[], some ['p'], 1⟩ []).2 ['p'] rfl⟩

/-! ### Identifier monotonicity over operation sequences (C3) -/

/-- The mutating operations of `TodoList`. -/
inductive Op where
  | add (s : List Char)
  | remove (i : Nat)
  | complete (i : Nat)
  | uncomplete (i : Nat)
  | set_path (p : List Char)

/-- State effect of one operation (`TodoList::set_path` binds the path). -/
def applyOp (l : TodoList) : Op → TodoList
  | .add s => (l.add s).1
  | .remove i => (l.remove i).1
  | .complete i => (l.complete i).1
  | .uncomplete i => (l.uncomplete i).1
  | .set_path p => ⟨l.items, some p, l.next_id⟩

/-- Run a sequence of operations. -/
def runOps (l : TodoList) : List Op → TodoList
  | [] => l
  | op :: ops => runOps (applyOp l op) ops

/-- The ids returned by the `add` calls of a sequence, in call order:
`TodoList::add` returns the `next_id` current at its call. -/
def addedIds (l : TodoList) : List Op → List Nat
  | [] => []
  | .add s :: ops => l.next_id :: addedIds (applyOp l (.add s)) ops
  | op :: ops => addedIds (applyOp l op) ops

/-- The id invariant: `next_id` exceeds every id held by a record. -/
def IdInv (l : TodoList) : Prop := ∀ it ∈ l.items, it.id < l.next_id

lemma applyOp_next_id_le (l : TodoList) (op : Op) :
    l.next_id ≤ (applyOp l op).next_id := by
  cases op <;>
    simp [applyOp, TodoList.add, TodoList.remove, TodoList.complete, TodoList.uncomplete]

lemma runOps_next_id_le (ops : List Op) (l : TodoList) :
    l.next_id ≤ (runOps l ops).next_id := by
  induction ops generalizing l with
  | nil => exact le_refl _
  | cons op ops ih => exact le_trans (applyOp_next_id_le l op) (ih (applyOp l op))

lemma removeFirst_mem {xs : List TodoItem} {i : Nat} {it : TodoItem}
    (h : it ∈ (removeFirst xs i).1) : it ∈ xs := by
  induction xs with
  | nil => simp [removeFirst] at h
  | cons u rest ih =>
    by_cases hu : u.id = i
    · simp [removeFirst, hu] at h
      exact List.mem_cons_of_mem u h
    · simp [removeFirst, hu] at h
      rcases h with h | h
      · exact h ▸ List.mem_cons_self u rest
      · exact List.mem_cons_of_mem u (ih h)

lemma updateFirst_id_mem {f : TodoItem → TodoItem} (hf : ∀ u, (f u).id = u.id)
    {xs : List TodoItem} {i : Nat} {it : TodoItem}
    (h : it ∈ (updateFirst f xs i).1) : ∃ u ∈ xs, it.id = u.id := by
  induction xs with
  | nil => simp [updateFirst] at h
  | cons u rest ih =>
    by_cases hu : u.id = i
    · simp [updateFirst, hu] at h
      rcases h with h | h
      · exact ⟨u, List.mem_cons_self u rest, h ▸ hf u⟩
      · exact ⟨it, List.mem_cons_of_mem u h, rfl⟩
    · simp [updateFirst, hu] at h
      rcases h with h | h
      · exact ⟨u, List.mem_cons_self u rest, by rw [h]⟩
      · obtain ⟨v, hv, hid⟩ := ih h
        exact ⟨v, List.mem_cons_of_mem u hv, hid⟩

lemma applyOp_inv {l : TodoList} (op : Op) (h : IdInv l) : IdInv (applyOp l op) := by
  cases op with
  | add s =>
    intro it hit
    simp [applyOp, TodoList.add] at hit
    rcases hit with hit | hit
    · exact lt_trans (h it hit) (Nat.lt_succ_self _)
    · rw [hit]
      exact Nat.lt_succ_self _
  | remove i =>
    intro it hit
    exact h it (removeFirst_mem hit)
  | complete i =>
    intro it hit
    simp only [applyOp, TodoList.complete] at hit
    obtain ⟨u, hu, hid⟩ :=
      updateFirst_id_mem (f := TodoItem.complete) (fun u => rfl) hit
    exact hid ▸ h u hu
  | uncomplete i =>
    intro it hit
    simp only [applyOp, TodoList.uncomplete] at hit
    obtain ⟨u, hu, hid⟩ :=
      updateFirst_id_mem (f := TodoItem.uncomplete) (fun u => rfl) hit
    exact hid ▸ h u hu
  | set_path p =>
    intro it hit
    exact h it hit

lemma runOps_inv (ops : List Op) {l : TodoList} (h : IdInv l) : IdInv (runOps l ops) := by
  induction ops generalizing l with
  | nil => exact h
  | cons op ops ih => exact ih (applyOp_inv op h)

lemma addedIds_ge (ops : List Op) (l : TodoList) :
    ∀ a ∈ addedIds l ops, l.next_id ≤ a := by
  induction ops generalizing l with
  | nil => intro a ha; simp [addedIds] at ha
  | cons op ops ih =>
    intro a ha
    cases op with
    | add s =>
      simp only [addedIds, List.mem_cons] at ha
      rcases ha with ha | ha
      · exact ha ▸ le_refl _
      · exact le_trans (applyOp_next_id_le l (.add s)) (ih (applyOp l (.add s)) a ha)
    | remove i =>
      exact le_trans (applyOp_next_id_le l (.remove i)) (ih _ a ha)
    | complete i =>
      exact le_trans (applyOp_next_id_le l (.complete i)) (ih _ a ha)
    | uncomplete i =>
      exact le_trans (applyOp_next_id_le l (.uncomplete i)) (ih _ a ha)
    | set_path p =>
      exact le_trans (applyOp_next_id_le l (.set_path p)) (ih _ a ha)

lemma addedIds_lt (ops : List Op) (l : TodoList) :
    ∀ a ∈ addedIds l ops, a < (runOps l ops).next_id := by
  induction ops generalizing l with
  | nil => intro a ha; simp [addedIds] at ha
  | cons op ops ih =>
    intro a ha
    cases op with
    | add s =>
      simp only [addedIds, List.mem_cons] at ha
      rcases ha with ha | ha
      · subst ha
        exact lt_of_lt_of_le
          (show l.next_id < (applyOp l (.add s)).next_id by
            simp [applyOp, TodoList.add])
          (runOps_next_id_le ops (applyOp l (.add s)))
      · exact ih (applyOp l (.add s)) a ha
    | remove i => exact ih _ a ha
    | complete i => exact ih _ a ha
    | uncomplete i => exact ih _ a ha
    | set_path p => exact ih _ a ha

lemma addedIds_pairwise (ops : List Op) (l : TodoList) :
    List.Pairwise (· < ·) (addedIds l ops) := by
  induction ops generalizing l with
  | nil => exact List.Pairwise.nil
  | cons op ops ih =>
    cases op with
    | add s =>
      refine List.Pairwise.cons ?_ (ih (applyOp l (.add s)))
      intro b hb
      have hge := addedIds_ge ops (applyOp l (.add s)) b hb
      have : l.next_id < (applyOp l (.add s)).next_id := by
        simp [applyOp, TodoList.add]
      exact lt_of_lt_of_le this hge
    | remove i => exact ih _
    | complete i => exact ih _
    | uncomplete i => exact ih _
    | set_path p => exact ih _

lemma fromLinesStep_inv {l : TodoList} (line : List Char) (h : IdInv l) :
    IdInv (fromLinesStep l line) := by
  unfold fromLinesStep
  split
  · exact h
  · intro it hit
    simp at hit
    rcases hit with hit | hit
    · exact lt_trans (h it hit) (Nat.lt_succ_self _)
    · rw [hit]
      exact Nat.lt_succ_self _

lemma from_lines_inv (p : List Char) (lines : List (List Char)) :
    IdInv (TodoList.from_lines p lines) := by
  unfold TodoList.from_lines
  have base : IdInv (⟨[], some p, 1⟩ : TodoList) := by
    intro it hit
    simp at hit
  generalize (⟨[], some p, 1⟩ : TodoList) = l0 at base ⊢
  induction lines generalizing l0 with
  | nil => exact base
  | cons line rest ih => exact ih _ (fromLinesStep_inv line base)

/-- C3: starting from any state satisfying the id invariant — `new()` and
`from_file` results both do — the ids returned by the `add` calls of any
operation sequence are strictly increasing in call order, the invariant is
preserved, `next_id` ends strictly above every id ever returned by an `add`
and every id initially held, and no id held at any reachable state (hence no
id later removed) is ever returned by a subsequent `add`. -/
theorem id_monotonicity (l : TodoList) (ops : List Op) (h : IdInv l) :
    List.Pairwise (· < ·) (addedIds l ops) ∧
    IdInv (runOps l ops) ∧
    (∀ a ∈ addedIds l ops, a < (runOps l ops).next_id) ∧
    (∀ it ∈ l.items, it.id < (runOps l ops).next_id) ∧
    (∀ it ∈ l.items, it.id ∉ addedIds l ops) ∧
    IdInv TodoList.new ∧
    (∀ p lines, IdInv (TodoList.from_lines p lines)) := by
  refine ⟨addedIds_pairwise ops l, runOps_inv ops h, addedIds_lt ops l, ?_, ?_, ?_, ?_⟩
  · intro it hit
    exact lt_of_lt_of_le (h it hit) (runOps_next_id_le ops l)
  · intro it hit ha
    exact absurd (addedIds_ge ops l it.id ha) (not_le.2 (h it hit))
  · intro it hit
    simp [TodoList.new] at hit
  · exact from_lines_inv

theorem id_monotonicity_witness :
    IdInv TodoList.new ∧
    List.Pairwise (· < ·)
      (addedIds TodoList.new [Op.add ['a'], Op.add ['b'], Op.remove 1, Op.add ['c']]) ∧
    IdInv (runOps TodoList.new [Op.add ['a'], Op.add ['b'], Op.remove 1, Op.add ['c']]) := by
  have h : IdInv TodoList.new := by
    intro it hit
    simp [TodoList.new] at hit
  have hm := id_monotonicity TodoList.new
    [Op.add ['a'], Op.add ['b'], Op.remove 1, Op.add ['c']] h
  exact ⟨h, hm.1, hm.2.1⟩

/-! ### Project tree builder (`src/gui/src/project_tree.rs`)

`build_project_tree` folds every project tag of every displayed item into a
`BTreeMap<String, TempNode>` per level (modelled as an association list kept
strictly sorted by the lexicographic order on `List Char`, the order
`BTreeMap<String, _>` uses), then converts each level into a sorted list of
`ProjectNode`s. -/

/-- `PROJECT_SEPARATOR = "---"`. -/
def PROJECT_SEPARATOR : List Char := ['-', '-', '-']

/-- Rust `str::split("---")`: greedy leftmost splitting on the three-dash
separator.  It always yields at least one (possibly empty) segment; on the
empty string it yields `[""]`. -/
def sepSplit : List Char → List (List Char)
  | [] => [[]]
  | '-' :: '-' :: '-' :: rest => [] :: sepSplit rest
  | c :: rest =>
    match sepSplit rest with
    | [] => [[c]]
    | w :: ws => (c :: w) :: ws

/-- `TempNode`: the accumulating node of the builder. -/
inductive TempNode where
  | mk : Nat → List (List Char × TempNode) → TempNode

/-- The `count` field of `TempNode`. -/
def TempNode.count : TempNode → Nat
  | .mk c _ => c

/-- The `children` field of `TempNode`. -/
def TempNode.children : TempNode → List (List Char × TempNode)
  | .mk _ cs => cs

/-- `BTreeMap::entry(k).or_insert_with(TempNode::default)` followed by an
update: apply `f` to the node at `k`, inserting `f default` at the sorted
position when `k` is absent. -/
def updateMap (k : List Char) (f : TempNode → TempNode) :
    List (List Char × TempNode) → List (List Char × TempNode)
  | [] => [(k, f (.mk 0 []))]
  | (q, v) :: rest =>
    if k < q then (k, f (.mk 0 [])) :: (q, v) :: rest
    else if k = q then (q, f v) :: rest
    else (q, v) :: updateMap k f rest

/-- One tag's walk (the inner `for (i, part)` loop of `build_project_tree`):
along the segment list create nodes as needed; the node of the last segment
has its count bumped, intermediate nodes only recurse into children. -/
def insertParts : List (List Char) → List (List Char × TempNode) → List (List Char × TempNode)
  | [], m => m
  | p :: rest, m =>
    updateMap p
      (fun n =>
        match rest with
        | [] => .mk (n.count + 1) n.children
        | _ => .mk n.count (insertParts rest n.children)) m

/-- The per-key effect of one tag walk, split out of `insertParts`. -/
def stepF (rest : List (List Char)) (n : TempNode) : TempNode :=
  match rest with
  | [] => .mk (n.count + 1) n.children
  | _ => .mk n.count (insertParts rest n.children)

lemma insertParts_cons (p : List Char) (rest : List (List Char))
    (m : List (List Char × TempNode)) :
    insertParts (p :: rest) m = updateMap p (stepF rest) m := by
  cases rest <;> rfl

/-- The outer double loop of `build_project_tree`, flattened over the
concatenated tag list. -/
def buildTags (tags : List (List Char)) : List (List Char × TempNode) :=
  tags.foldl (fun m t => insertParts (sepSplit t) m) []

/-- The gui-side `TodoItem` of `src/gui/src/app.rs`; `build_project_tree`
reads only `projects`. -/
structure GuiTodoItem where
  id : Nat
  subject : List Char
  finished : Bool
  priority : Nat
  contexts : List (List Char)
  projects : List (List Char)

/-- `ProjectNode` of `src/gui/src/project_tree.rs`. -/
inductive ProjectNode where
  | mk : List Char → List Char → Nat → List ProjectNode → ProjectNode

/-- The `name` field of `ProjectNode`. -/
def ProjectNode.name : ProjectNode → List Char
  | .mk n _ _ _ => n

/-- The `full_path` field of `ProjectNode`. -/
def ProjectNode.full_path : ProjectNode → List Char
  | .mk _ p _ _ => p

/-- The `direct_count` field of `ProjectNode`. -/
def ProjectNode.direct_count : ProjectNode → Nat
  | .mk _ _ c _ => c

/-- The `children` field of `ProjectNode`. -/
def ProjectNode.children : ProjectNode → List ProjectNode
  | .mk _ _ _ cs => cs

/-- The recursive `convert` of `build_project_tree`: each level in key order
becomes a list of `ProjectNode`s, threading the `full_path` prefix. -/
def convert : List (List Char × TempNode) → List Char → List ProjectNode
  | [], _ => []
  | (name, .mk c cs) :: rest, pre =>
    .mk name (if pre = [] then name else pre ++ PROJECT_SEPARATOR ++ name) c
        (convert cs (if pre = [] then name else pre ++ PROJECT_SEPARATOR ++ name)) ::
      convert rest pre

/-- `build_project_tree`: fold all project tags of all items, then convert. -/
def build_project_tree (todos : List GuiTodoItem) : List ProjectNode :=
  convert (buildTags ((todos.map fun t => t.projects).flatten)) []

/-- `lookupMap`: association-list lookup (`BTreeMap::get`). -/
def lookupMap : List (List Char × TempNode) → List Char → Option TempNode
  | [], _ => none
  | (q, v) :: rest, k => if k = q then some v else lookupMap rest k

/-- The accumulated node at a (nonempty) segment path, if present. -/
def nodeAt : List (List Char × TempNode) → List (List Char) → Option TempNode
  | _, [] => none
  | m, [p] => lookupMap m p
  | m, p :: q :: rest =>
    match lookupMap m p with
    | none => none
    | some n => nodeAt n.children (q :: rest)

/-- The direct count recorded at a segment path (0 when no node exists). -/
def countAt (m : List (List Char × TempNode)) (ps : List (List Char)) : Nat :=
  match nodeAt m ps with
  | none => 0
  | some n => n.count

mutual

/-- Well-formedness of an accumulating node: its children map is
well-formed. -/
def NodeWF : TempNode → Prop
  | .mk _ cs => MapWF cs

/-- Well-formedness of a level map: keys strictly sorted (each key below
every later key), nodes well-formed. -/
def MapWF : List (List Char × TempNode) → Prop
  | [] => True
  | (k, n) :: rest => (∀ e ∈ rest, k < e.1) ∧ NodeWF n ∧ MapWF rest

end

lemma updateMap_cons_lt {k q : List Char} (h : k < q) (f : TempNode → TempNode)
    (v : TempNode) (rest : List (List Char × TempNode)) :
    updateMap k f ((q, v) :: rest) = (k, f (.mk 0 [])) :: (q, v) :: rest := by
  simp [updateMap, h]

lemma updateMap_cons_eq {k q : List Char} (h : k = q) (f : TempNode → TempNode)
    (v : TempNode) (rest : List (List Char × TempNode)) :
    updateMap k f ((q, v) :: rest) = (q, f v) :: rest := by
  subst h
  simp [updateMap, lt_irrefl]

lemma updateMap_cons_gt {k q : List Char} (h1 : ¬k < q) (h2 : k ≠ q)
    (f : TempNode → TempNode) (v : TempNode) (rest : List (List Char × TempNode)) :
    updateMap k f ((q, v) :: rest) = (q, v) :: updateMap k f rest := by
  simp [updateMap, h1, h2]

lemma lookupMap_none_of_ne {m : List (List Char × TempNode)} {k : List Char}
    (h : ∀ e ∈ m, k ≠ e.1) : lookupMap m k = none := by
  induction m with
  | nil => rfl
  | cons e rest ih =>
    rcases e with ⟨q, v⟩
    have hq : k ≠ q := h (q, v) (List.mem_cons_self _ _)
    simp only [lookupMap, if_neg hq]
    exact ih fun e he => h e (List.mem_cons_of_mem _ he)

lemma lookupMap_updateMap_self (k : List Char) (f : TempNode → TempNode)
    {m : List (List Char × TempNode)} (h : MapWF m) :
    lookupMap (updateMap k f m) k = some (f ((lookupMap m k).getD (.mk 0 []))) := by
  induction m with
  | nil => simp [updateMap, lookupMap]
  | cons e rest ih =>
    rcases e with ⟨q, v⟩
    simp only [MapWF] at h
    obtain ⟨hq, hn, hrest⟩ := h
    by_cases hlt : k < q
    · rw [updateMap_cons_lt hlt]
      have hnone : lookupMap ((q, v) :: rest) k = none := by
        apply lookupMap_none_of_ne
        intro e he
        rcases List.mem_cons.mp he with he | he
        · rw [he]
          exact ne_of_lt hlt
        · exact ne_of_lt (lt_trans hlt (hq e he))
      have h1 : lookupMap ((k, f (.mk 0 [])) :: (q, v) :: rest) k = some (f (.mk 0 [])) := by
        simp [lookupMap]
      rw [h1, hnone]
      rfl
    · by_cases heq : k = q
      · subst heq
        rw [updateMap_cons_eq rfl]
        simp [lookupMap]
      · rw [updateMap_cons_gt hlt heq]
        simp only [lookupMap, if_neg heq]
        exact ih hrest

lemma lookupMap_updateMap_other (k : List Char) (f : TempNode → TempNode)
    {kk : List Char} (hne : kk ≠ k) (m : List (List Char × TempNode)) :
    lookupMap (updateMap k f m) kk = lookupMap m kk := by
  induction m with
  | nil => simp [updateMap, lookupMap, hne]
  | cons e rest ih =>
    rcases e with ⟨q, v⟩
    by_cases hlt : k < q
    · rw [updateMap_cons_lt hlt]
      simp [lookupMap, hne]
    · by_cases heq : k = q
      · subst heq
        rw [updateMap_cons_eq rfl]
        by_cases hkk : kk = k
        · exact absurd hkk hne
        · simp [lookupMap, hkk]
      · rw [updateMap_cons_gt hlt heq]
        by_cases hkk : kk = q
        · simp [lookupMap, hkk]
        · simp [lookupMap, hkk, ih]

lemma updateMap_keys {k : List Char} {f : TempNode → TempNode} :
    ∀ {m : List (List Char × TempNode)} e, e ∈ updateMap k f m →
      e.1 = k ∨ ∃ u ∈ m, e.1 = u.1 := by
  intro m
  induction m with
  | nil =>
    intro e he
    simp only [updateMap, List.mem_singleton] at he
    left
    rw [he]
  | cons u rest ih =>
    rcases u with ⟨q, v⟩
    intro e he
    by_cases hlt : k < q
    · rw [updateMap_cons_lt hlt] at he
      rcases List.mem_cons.mp he with he | he
      · left; rw [he]
      · right; exact ⟨e, he, rfl⟩
    · by_cases heq : k = q
      · subst heq
        rw [updateMap_cons_eq rfl] at he
        rcases List.mem_cons.mp he with he | he
        · right
          exact ⟨(k, v), List.mem_cons_self _ _, by rw [he]⟩
        · right
          exact ⟨e, List.mem_cons_of_mem _ he, rfl⟩
      · rw [updateMap_cons_gt hlt heq] at he
        rcases List.mem_cons.mp he with he | he
        · right
          exact ⟨(q, v), List.mem_cons_self _ _, by rw [he]⟩
        · rcases ih e he with h1 | ⟨u, hu, h2⟩
          · left; exact h1
          · right; exact ⟨u, List.mem_cons_of_mem _ hu, h2⟩

lemma updateMap_WF {m : List (List Char × TempNode)} (h : MapWF m)
    (k : List Char) (f : TempNode → TempNode)
    (hf : ∀ n, NodeWF n → NodeWF (f n)) (hd : NodeWF (f (.mk 0 []))) :
    MapWF (updateMap k f m) := by
  induction m with
  | nil =>
    simp only [updateMap, MapWF]
    refine ⟨by simp, hd, trivial⟩
  | cons e rest ih =>
    rcases e with ⟨q, v⟩
    simp only [MapWF] at h
    obtain ⟨hq, hn, hrest⟩ := h
    by_cases hlt : k < q
    · rw [updateMap_cons_lt hlt]
      simp only [MapWF]
      refine ⟨?_, hd, hq, hn, hrest⟩
      intro e he
      rcases List.mem_cons.mp he with he | he
      · rw [he]; exact hlt
      · exact lt_trans hlt (hq e he)
    · by_cases heq : k = q
      · subst heq
        rw [updateMap_cons_eq rfl]
        simp only [MapWF]
        exact ⟨hq, hf v hn, hrest⟩
      · rw [updateMap_cons_gt hlt heq]
        simp only [MapWF]
        refine ⟨?_, hn, ih hrest⟩
        intro e he
        rcases updateMap_keys e he with h1 | ⟨u, hu, h2⟩
        · rw [h1]
          exact lt_of_le_of_ne (not_lt.mp hlt) (Ne.symm heq)
        · rw [h2]
          exact hq u hu

lemma lookupMap_WF {m : List (List Char × TempNode)} {k : List Char} {n : TempNode}
    (h : MapWF m) (hl : lookupMap m k = some n) : NodeWF n := by
  induction m with
  | nil => simp [lookupMap] at hl
  | cons e rest ih =>
    rcases e with ⟨q, v⟩
    simp only [MapWF] at h
    obtain ⟨hq, hn, hrest⟩ := h
    by_cases heq : k = q
    · simp only [lookupMap, if_pos heq, Option.some.injEq] at hl
      rw [← hl]
      exact hn
    · simp only [lookupMap, if_neg heq] at hl
      exact ih hrest hl

lemma mapWF_nil : MapWF [] := by
  simp only [MapWF]

lemma insertParts_WF : ∀ (ps : List (List Char)) {m : List (List Char × TempNode)},
    MapWF m → MapWF (insertParts ps m) := by
  intro ps
  induction ps with
  | nil => intro m h; exact h
  | cons p rest ih =>
    intro m h
    rw [insertParts_cons]
    apply updateMap_WF h p (stepF rest)
    · intro n hn
      rcases n with ⟨c, cs⟩
      simp only [NodeWF] at hn
      cases rest with
      | nil =>
        simp only [stepF, NodeWF, TempNode.count, TempNode.children]
        exact hn
      | cons r rs =>
        simp only [stepF, NodeWF, TempNode.count, TempNode.children]
        exact ih hn
    · cases rest with
      | nil =>
        simp only [stepF, NodeWF, TempNode.count, TempNode.children]
        exact mapWF_nil
      | cons r rs =>
        simp only [stepF, NodeWF, TempNode.count, TempNode.children]
        exact ih mapWF_nil

lemma foldTags_WF : ∀ (tags : List (List Char)) {m : List (List Char × TempNode)},
    MapWF m → MapWF (tags.foldl (fun m t => insertParts (sepSplit t) m) m) := by
  intro tags
  induction tags with
  | nil => intro m h; exact h
  | cons t rest ih =>
    intro m h
    exact ih (insertParts_WF (sepSplit t) h)

lemma buildTags_WF (tags : List (List Char)) : MapWF (buildTags tags) :=
  foldTags_WF tags mapWF_nil

lemma updateMap_nil (k : List Char) (f : TempNode → TempNode) :
    updateMap k f [] = [(k, f (.mk 0 []))] := rfl

lemma updateMap_congr {f g : TempNode → TempNode} (h : ∀ n, f n = g n)
    (k : List Char) : ∀ m, updateMap k f m = updateMap k g m := by
  intro m
  induction m with
  | nil => simp [updateMap, h]
  | cons e rest ih =>
    rcases e with ⟨q, v⟩
    by_cases hlt : k < q
    · rw [updateMap_cons_lt hlt, updateMap_cons_lt hlt, h]
    · by_cases heq : k = q
      · subst heq
        rw [updateMap_cons_eq rfl, updateMap_cons_eq rfl, h]
      · rw [updateMap_cons_gt hlt heq, updateMap_cons_gt hlt heq, ih]

lemma updateMap_comp (k : List Char) (f g : TempNode → TempNode) :
    ∀ m, updateMap k f (updateMap k g m) = updateMap k (fun n => f (g n)) m := by
  intro m
  induction m with
  | nil =>
    rw [updateMap_nil, updateMap_cons_eq rfl, updateMap_nil]
  | cons e rest ih =>
    rcases e with ⟨q, v⟩
    by_cases hlt : k < q
    · rw [updateMap_cons_lt hlt, updateMap_cons_eq rfl, updateMap_cons_lt hlt]
    · by_cases heq : k = q
      · subst heq
        rw [updateMap_cons_eq rfl, updateMap_cons_eq rfl, updateMap_cons_eq rfl]
      · rw [updateMap_cons_gt hlt heq, updateMap_cons_gt hlt heq,
          updateMap_cons_gt hlt heq, ih]

lemma updateMap_comm {k1 k2 : List Char} (hne : k1 ≠ k2)
    (f g : TempNode → TempNode) :
    ∀ m, updateMap k1 f (updateMap k2 g m) = updateMap k2 g (updateMap k1 f m) := by
  intro m
  induction m with
  | nil =>
    rcases lt_or_gt_of_ne hne with hlt | hgt
    · rw [updateMap_nil, updateMap_nil, updateMap_cons_lt hlt,
        updateMap_cons_gt (lt_asymm hlt) (Ne.symm hne), updateMap_nil]
    · rw [updateMap_nil, updateMap_nil, updateMap_cons_gt (lt_asymm hgt) hne,
        updateMap_cons_lt hgt, updateMap_nil]
  | cons e rest ih =>
    rcases e with ⟨q, v⟩
    by_cases h2lt : k2 < q
    · rw [updateMap_cons_lt h2lt]
      rcases lt_or_gt_of_ne hne with h12 | h21
      · rw [updateMap_cons_lt h12, updateMap_cons_lt (lt_trans h12 h2lt),
          updateMap_cons_gt (lt_asymm h12) (Ne.symm hne), updateMap_cons_lt h2lt]
      · rw [updateMap_cons_gt (lt_asymm h21) hne]
        by_cases h1lt : k1 < q
        · rw [updateMap_cons_lt h1lt, updateMap_cons_lt h21]
        · by_cases h1eq : k1 = q
          · subst h1eq
            rw [updateMap_cons_eq rfl, updateMap_cons_lt h2lt]
          · rw [updateMap_cons_gt h1lt h1eq, updateMap_cons_lt h2lt]
    · by_cases h2eq : k2 = q
      · subst h2eq
        rw [updateMap_cons_eq rfl]
        rcases lt_or_gt_of_ne hne with h12 | h21
        · rw [updateMap_cons_lt h12, updateMap_cons_lt h12,
            updateMap_cons_gt (lt_asymm h12) (Ne.symm hne), updateMap_cons_eq rfl]
        · rw [updateMap_cons_gt (lt_asymm h21) hne,
            updateMap_cons_gt (lt_asymm h21) hne, updateMap_cons_eq rfl]
      · rw [updateMap_cons_gt h2lt h2eq]
        by_cases h1lt : k1 < q
        · have hqk2 : q < k2 :=
            lt_of_le_of_ne (not_lt.mp h2lt) fun h => h2eq h.symm
          rw [updateMap_cons_lt h1lt, updateMap_cons_lt h1lt,
            updateMap_cons_gt (lt_asymm (lt_trans h1lt hqk2)) (Ne.symm hne),
            updateMap_cons_gt h2lt h2eq]
        · by_cases h1eq : k1 = q
          · subst h1eq
            rw [updateMap_cons_eq rfl, updateMap_cons_eq rfl,
              updateMap_cons_gt h2lt h2eq]
          · rw [updateMap_cons_gt h1lt h1eq, updateMap_cons_gt h1lt h1eq,
              updateMap_cons_gt h2lt h2eq, ih]

lemma insertParts_comm : ∀ (ps qs : List (List Char)) (m : List (List Char × TempNode)),
    insertParts ps (insertParts qs m) = insertParts qs (insertParts ps m) := by
  intro ps
  induction ps with
  | nil => intro qs m; rfl
  | cons p ptail ih =>
    intro qs m
    cases qs with
    | nil => rfl
    | cons q qtail =>
      rw [insertParts_cons, insertParts_cons, insertParts_cons, insertParts_cons]
      by_cases hpq : p = q
      · subst hpq
        rw [updateMap_comp, updateMap_comp]
        apply updateMap_congr
        intro n
        rcases n with ⟨c, cs⟩
        cases ptail with
        | nil =>
          cases qtail with
          | nil => rfl
          | cons r rs => rfl
        | cons a as =>
          cases qtail with
          | nil => rfl
          | cons r rs =>
            simp only [stepF, TempNode.count, TempNode.children]
            rw [ih (r :: rs) cs]
      · exact updateMap_comm hpq (stepF ptail) (stepF qtail) m

lemma foldTags_perm {l1 l2 : List (List Char)} (h : l1.Perm l2) :
    ∀ m, l1.foldl (fun m t => insertParts (sepSplit t) m) m
       = l2.foldl (fun m t => insertParts (sepSplit t) m) m := by
  induction h with
  | nil => intro m; rfl
  | cons t _ ih => intro m; exact ih _
  | swap a b l =>
    intro m
    simp only [List.foldl]
    rw [insertParts_comm]
  | trans _ _ ih1 ih2 => intro m; exact (ih1 m).trans (ih2 m)

lemma sepSplit_ne_nil : ∀ t : List Char, sepSplit t ≠ [] := by
  intro t
  induction t using sepSplit.induct <;> simp_all [sepSplit]

lemma nodeAt_single (m : List (List Char × TempNode)) (p : List Char) :
    nodeAt m [p] = lookupMap m p := rfl

lemma countAt_single (m : List (List Char × TempNode)) (p : List Char) :
    countAt m [p] =
      (match lookupMap m p with
       | none => 0
       | some n => n.count) := rfl

lemma countAt_cons (m : List (List Char × TempNode)) (p p2 : List Char)
    (pt : List (List Char)) :
    countAt m (p :: p2 :: pt) =
      (match lookupMap m p with
       | none => 0
       | some n => countAt n.children (p2 :: pt)) := by
  cases h : lookupMap m p <;> simp [countAt, nodeAt, h]

lemma countAt_nil_map (ps : List (List Char)) : countAt [] ps = 0 := by
  cases ps with
  | nil => rfl
  | cons p pt => cases pt with
    | nil => rfl
    | cons p2 ptt => rfl

lemma countAt_insertParts : ∀ (qs : List (List Char)) {m : List (List Char × TempNode)},
    MapWF m → ∀ ps : List (List Char),
    countAt (insertParts qs m) ps =
      countAt m ps + (if ps = qs ∧ qs ≠ [] then 1 else 0) := by
  intro qs
  induction qs with
  | nil =>
    intro m h ps
    simp [insertParts]
  | cons q qtail ih =>
    intro m h ps
    rw [insertParts_cons]
    cases ps with
    | nil =>
      simp only [countAt, nodeAt]
      simp
    | cons p ptail =>
      by_cases hpq : p = q
      · subst hpq
        have hl := lookupMap_updateMap_self p (stepF qtail) h
        have hcond : ((p :: ptail = p :: qtail ∧ p :: qtail ≠ []) : Prop) ↔ ptail = qtail := by
          simp
        rw [if_congr hcond rfl rfl]
        cases ptail with
        | nil =>
          rw [countAt_single, countAt_single, hl]
          cases hlm : lookupMap m p with
          | none =>
            cases qtail with
            | nil => simp [stepF, TempNode.count, Option.getD]
            | cons r rs => simp [stepF, TempNode.count, Option.getD]
          | some n =>
            rcases n with ⟨c, cs⟩
            cases qtail with
            | nil => simp [stepF, TempNode.count, Option.getD]
            | cons r rs => simp [stepF, TempNode.count, Option.getD]
        | cons p2 pt =>
          rw [countAt_cons, countAt_cons, hl]
          cases hlm : lookupMap m p with
          | none =>
            cases qtail with
            | nil =>
              simp [stepF, TempNode.children, Option.getD, countAt_nil_map]
            | cons r rs =>
              have hrec := ih mapWF_nil (p2 :: pt)
              simp only [Option.getD, stepF, TempNode.children]
              rw [hrec, countAt_nil_map]
              simp
          | some n =>
            rcases n with ⟨c, cs⟩
            have hwf : NodeWF (TempNode.mk c cs) := lookupMap_WF h hlm
            simp only [NodeWF] at hwf
            cases qtail with
            | nil =>
              simp only [Option.getD, stepF, TempNode.children]
              simp [TempNode.children]
            | cons r rs =>
              have hrec := ih hwf (p2 :: pt)
              simp only [Option.getD, stepF, TempNode.children]
              rw [hrec]
              simp [TempNode.children]
      · have hl := lookupMap_updateMap_other q (stepF qtail) hpq m
        have hcond : ((p :: ptail = q :: qtail ∧ q :: qtail ≠ []) : Prop) ↔ False := by
          simp [hpq]
        rw [if_congr hcond rfl rfl, if_neg (by exact fun h => h)]
        cases ptail with
        | nil =>
          rw [countAt_single, countAt_single, hl]
          simp
        | cons p2 pt =>
          rw [countAt_cons, countAt_cons, hl]
          simp

lemma countAt_foldTags : ∀ (tags : List (List Char)) {m : List (List Char × TempNode)},
    MapWF m → ∀ ps : List (List Char),
    countAt (tags.foldl (fun m t => insertParts (sepSplit t) m) m) ps =
      countAt m ps + tags.countP (fun t => decide (sepSplit t = ps)) := by
  intro tags
  induction tags with
  | nil =>
    intro m h ps
    simp [List.countP_nil]
  | cons t rest ih =>
    intro m h ps
    have hstep := countAt_insertParts (sepSplit t) h ps
    have hwf := insertParts_WF (sepSplit t) h
    simp only [List.foldl]
    rw [ih hwf ps, hstep, List.countP_cons]
    by_cases hc : sepSplit t = ps
    · rw [if_pos ⟨hc.symm, sepSplit_ne_nil t⟩]
      simp [hc]
      omega
    · rw [if_neg (fun hh => hc hh.1.symm)]
      simp [hc]

/-- The direct count recorded at any path in the map built from a tag list
equals the number of tags splitting to exactly that path. -/
lemma countAt_buildTags (tags : List (List Char)) (ps : List (List Char)) :
    countAt (buildTags tags) ps = tags.countP fun t => decide (sepSplit t = ps) := by
  have h := countAt_foldTags tags mapWF_nil ps
  rw [buildTags, h, countAt_nil_map]
  simp

lemma nodeAt_cons (m : List (List Char × TempNode)) (p p2 : List Char)
    (pt : List (List Char)) :
    nodeAt m (p :: p2 :: pt) =
      (match lookupMap m p with
       | none => none
       | some n => nodeAt n.children (p2 :: pt)) := rfl

lemma nodeAt_isSome_insertParts :
    ∀ (qs : List (List Char)) {m : List (List Char × TempNode)}, MapWF m →
    ∀ ps : List (List Char), ps ≠ [] →
    ((∃ ts, qs = ps ++ ts) ∨ (nodeAt m ps).isSome = true) →
    (nodeAt (insertParts qs m) ps).isSome = true := by
  intro qs
  induction qs with
  | nil =>
    intro m h ps hps hyp
    rcases hyp with ⟨ts, hts⟩ | hsome
    · cases ps with
      | nil => exact absurd rfl hps
      | cons a b => simp at hts
    · exact hsome
  | cons q qtail ih =>
    intro m h ps hps hyp
    rw [insertParts_cons]
    cases ps with
    | nil => exact absurd rfl hps
    | cons p ptail =>
      by_cases hpq : p = q
      · subst hpq
        have hl := lookupMap_updateMap_self p (stepF qtail) h
        cases ptail with
        | nil =>
          rw [nodeAt_single, hl]
          rfl
        | cons p2 pt =>
          rw [nodeAt_cons, hl]
          simp only [Option.isSome]
          cases qtail with
          | nil =>
            have hsome : (nodeAt m (p :: p2 :: pt)).isSome = true := by
              rcases hyp with ⟨ts, hts⟩ | hsome
              · simp at hts
              · exact hsome
            rw [nodeAt_cons] at hsome
            cases hlm : lookupMap m p with
            | none => rw [hlm] at hsome; simp at hsome
            | some n =>
              rw [hlm] at hsome
              simp only [hlm, Option.getD, stepF, TempNode.children]
              exact hsome
          | cons r rs =>
            simp only [stepF, TempNode.children]
            apply ih
            · cases hlm : lookupMap m p with
              | none => simp [hlm, Option.getD]; exact mapWF_nil
              | some n =>
                have := lookupMap_WF h hlm
                rcases n with ⟨c, cs⟩
                simp only [NodeWF] at this
                simp [hlm, Option.getD]
                exact this
            · simp
            · rcases hyp with ⟨ts, hts⟩ | hsome
              · left
                simp only [List.cons_append, List.cons.injEq] at hts
                obtain ⟨h1, h2⟩ := hts.2
                exact ⟨ts, by simp [h1, h2]⟩
              · right
                rw [nodeAt_cons] at hsome
                cases hlm : lookupMap m p with
                | none => rw [hlm] at hsome; simp at hsome
                | some n => rw [hlm] at hsome; simp [hlm, Option.getD]; exact hsome
      · have hl := lookupMap_updateMap_other q (stepF qtail) hpq m
        have hyp2 : (nodeAt m (p :: ptail)).isSome = true := by
          rcases hyp with ⟨ts, hts⟩ | hsome
          · simp only [List.cons_append, List.cons.injEq] at hts
            exact absurd hts.1.symm hpq
          · exact hsome
        cases ptail with
        | nil =>
          rw [nodeAt_single, hl]
          rw [nodeAt_single] at hyp2
          exact hyp2
        | cons p2 pt =>
          rw [nodeAt_cons, hl]
          rw [nodeAt_cons] at hyp2
          exact hyp2

lemma nodeAt_isSome_foldTags :
    ∀ (tags : List (List Char)) {m : List (List Char × TempNode)}, MapWF m →
    ∀ ps : List (List Char), ps ≠ [] →
    (nodeAt m ps).isSome = true →
    (nodeAt (tags.foldl (fun m t => insertParts (sepSplit t) m) m) ps).isSome = true := by
  intro tags
  induction tags with
  | nil => intro m h ps hps hsome; exact hsome
  | cons t rest ih =>
    intro m h ps hps hsome
    simp only [List.foldl]
    exact ih (insertParts_WF _ h) ps hps
      (nodeAt_isSome_insertParts (sepSplit t) h ps hps (Or.inr hsome))

lemma foldTags_segment_node :
    ∀ (tags : List (List Char)) {m : List (List Char × TempNode)}, MapWF m →
    ∀ {t : List Char}, t ∈ tags → ∀ ps : List (List Char), ps ≠ [] →
    (∃ ts, sepSplit t = ps ++ ts) →
    (nodeAt (tags.foldl (fun m t => insertParts (sepSplit t) m) m) ps).isSome = true := by
  intro tags
  induction tags with
  | nil => intro m h t ht; simp at ht
  | cons t0 rest ih =>
    intro m h t ht ps hps hpre
    simp only [List.foldl]
    rcases List.mem_cons.mp ht with heq | hmem
    · subst heq
      exact nodeAt_isSome_foldTags rest (insertParts_WF _ h) ps hps
        (nodeAt_isSome_insertParts (sepSplit t) h ps hps (Or.inl hpre))
    · exact ih (insertParts_WF _ h) hmem ps hps hpre

/-- Every nonempty prefix of the segment walk of any tag in the list has a
node in the built map. -/
lemma buildTags_segment_node {tags : List (List Char)} {t : List Char}
    (ht : t ∈ tags) (ps : List (List Char)) (hps : ps ≠ [])
    (hpre : ∃ ts, sepSplit t = ps ++ ts) :
    (nodeAt (buildTags tags) ps).isSome = true :=
  foldTags_segment_node tags mapWF_nil ht ps hps hpre

/-- The output ordering invariant of the forest: at every level each node's
name is lexicographically below every later sibling's name (so siblings are
strictly sorted and unique per name), recursively in all children. -/
def ForestSorted : List ProjectNode → Prop
  | [] => True
  | .mk name _ _ cs :: rest =>
      (∀ pn ∈ rest, name < pn.name) ∧ ForestSorted cs ∧ ForestSorted rest

lemma convert_mem_name : ∀ (m : List (List Char × TempNode)) (pre : List Char),
    ∀ pn ∈ convert m pre, ∃ e ∈ m, pn.name = e.1 := by
  intro m pre
  induction m, pre using convert.induct with
  | case1 pre =>
    intro pn hpn
    simp [convert] at hpn
  | case2 name c cs rest pre ih1 ih2 =>
    intro pn hpn
    simp only [convert] at hpn
    rcases List.mem_cons.mp hpn with heq | hmem
    · exact ⟨(name, .mk c cs), List.mem_cons_self _ _, by rw [heq]; rfl⟩
    · obtain ⟨e, he, hname⟩ := ih2 pn hmem
      exact ⟨e, List.mem_cons_of_mem _ he, hname⟩

lemma convert_sorted : ∀ (m : List (List Char × TempNode)) (pre : List Char),
    MapWF m → ForestSorted (convert m pre) := by
  intro m pre
  induction m, pre using convert.induct with
  | case1 pre =>
    intro h
    simp [convert, ForestSorted]
  | case2 name c cs rest pre ih1 ih2 =>
    intro h
    simp only [MapWF] at h
    obtain ⟨hlt, hn, hrest⟩ := h
    simp only [NodeWF] at hn
    simp only [convert, ForestSorted]
    refine ⟨?_, ih1 hn, ih2 hrest⟩
    intro pn hpn
    obtain ⟨e, he, hname⟩ := convert_mem_name rest pre pn hpn
    rw [hname]
    exact hlt e he

lemma sepSplit_eq_single_nil_iff : ∀ t : List Char, sepSplit t = [[]] ↔ t = [] := by
  intro t
  induction t using sepSplit.induct <;> simp_all [sepSplit, sepSplit_ne_nil]

/-- C7: the builder splits each tag on the reserved separator and walks the
segments: the direct count at any segment path in the built map equals the
number of tags whose split is exactly that path (so only the last segment of
each tag's walk is counted, intermediate segments gain no count); every
nonempty prefix of a tag's walk has a node in the map; and on the tags
`["home---errands", "home---bills", "work"]` the built forest is exactly
`home` (count 0, children `bills` and `errands` each count 1) followed by
`work` (count 1, no children). -/
theorem build_tree_counts :
    (∀ (tags : List (List Char)) (ps : List (List Char)),
      countAt (buildTags tags) ps = tags.countP fun t => decide (sepSplit t = ps)) ∧
    (∀ (tags : List (List Char)) (t : List Char), t ∈ tags →
      ∀ ps : List (List Char), ps ≠ [] → (∃ ts, sepSplit t = ps ++ ts) →
      (nodeAt (buildTags tags) ps).isSome = true) ∧
    build_project_tree
      [⟨1, [], false, 26, [],
        ["home---errands".data, "home---bills".data, "work".data]⟩] =
      [ProjectNode.mk "home".data "home".data 0
         [ProjectNode.mk "bills".data "home---bills".data 1 [],
          ProjectNode.mk "errands".data "home---errands".data 1 []],
       ProjectNode.mk "work".data "work".data 1 []] := by
  refine ⟨countAt_buildTags, ?_, ?_⟩
  · intro tags t ht ps hps hpre
    exact buildTags_segment_node ht ps hps hpre
  · show convert
      [("home".data, TempNode.mk 0
          [("bills".data, TempNode.mk 1 []), ("errands".data, TempNode.mk 1 [])]),
       ("work".data, TempNode.mk 1 [])] [] = _
    simp [convert, PROJECT_SEPARATOR]

theorem build_tree_counts_witness :
    ("home---errands".data ∈ ["home---errands".data]) ∧
    (["home".data] : List (List Char)) ≠ [] ∧
    (∃ ts, sepSplit "home---errands".data = ["home".data] ++ ts) ∧
    (nodeAt (buildTags ["home---errands".data]) ["home".data]).isSome = true := by
  have h1 : "home---errands".data ∈ ["home---errands".data] :=
    List.mem_singleton.mpr rfl
  have h2 : (["home".data] : List (List Char)) ≠ [] := by simp
  have h3 : ∃ ts, sepSplit "home---errands".data = ["home".data] ++ ts :=
    ⟨["errands".data], rfl⟩
  exact ⟨h1, h2, h3, build_tree_counts.2.1 _ _ h1 _ h2 h3⟩

/-- C8: the forest depends only on the multiset of project tags — any two
item lists whose concatenated tag lists are permutations of each other
produce identical forests, whatever the distribution over items — and every
produced forest has, at every level, children strictly sorted by
lexicographic name order and therefore unique per name. -/
theorem build_tree_deterministic_sorted :
    (∀ todos1 todos2 : List GuiTodoItem,
      ((todos1.map fun t => t.projects).flatten).Perm
        ((todos2.map fun t => t.projects).flatten) →
      build_project_tree todos1 = build_project_tree todos2) ∧
    (∀ todos : List GuiTodoItem, ForestSorted (build_project_tree todos)) := by
  constructor
  · intro t1 t2 hperm
    rw [build_project_tree, build_project_tree, buildTags, buildTags,
      foldTags_perm hperm]
  · intro todos
    exact convert_sorted _ _ (buildTags_WF _)

theorem build_tree_deterministic_sorted_witness :
    ((([⟨1, [], false, 26, [], ["b".data, "a".data]⟩] :
        List GuiTodoItem).map fun t => t.projects).flatten).Perm
      ((([⟨1, [], false, 26, [], ["a".data]⟩,
          ⟨2, [], false, 26, [], ["b".data]⟩] :
        List GuiTodoItem).map fun t => t.projects).flatten) ∧
    build_project_tree [⟨1, [], false, 26, [], ["b".data, "a".data]⟩] =
      build_project_tree
        [⟨1, [], false, 26, [], ["a".data]⟩, ⟨2, [], false, 26, [], ["b".data]⟩] := by
  have hp : ((([⟨1, [], false, 26, [], ["b".data, "a".data]⟩] :
        List GuiTodoItem).map fun t => t.projects).flatten).Perm
      ((([⟨1, [], false, 26, [], ["a".data]⟩,
          ⟨2, [], false, 26, [], ["b".data]⟩] :
        List GuiTodoItem).map fun t => t.projects).flatten) := by
    decide
  exact ⟨hp, build_tree_deterministic_sorted.1 _ _ hp⟩

/-- C9 counterexample: a single empty-string project tag is not ignored — it
produces a top-level node with empty name, empty full path and
`direct_count` 1, where the claim requires it to contribute no node and no
count (an empty forest on this input). -/
theorem empty_tag_produces_node :
    build_project_tree [⟨1, [], false, 26, [], [[]]⟩] =
      [ProjectNode.mk [] [] 1 []] ∧
    (build_project_tree [⟨1, [], false, 26, [], [[]]⟩]).length ≠ 0 := by
  have h : build_project_tree [⟨1, [], false, 26, [], [[]]⟩] =
      [ProjectNode.mk [] [] 1 []] := by
    show convert [(([] : List Char), TempNode.mk 1 [])] [] = _
    simp [convert]
  refine ⟨h, ?_⟩
  rw [h]
  simp

/-- C9 as amended: an empty-string project tag is not ignored — the split of
the empty string is the single empty segment, so each empty tag bumps the
count of a top-level node named by the empty string: the direct count at
that node equals the number of empty tags, and the node exists as soon as
one empty tag occurs. -/
theorem empty_tag_counts :
    (∀ tags : List (List Char),
      countAt (buildTags tags) [[]] = tags.countP fun t => decide (t = [])) ∧
    (∀ tags : List (List Char), ([] : List Char) ∈ tags →
      (nodeAt (buildTags tags) [[]]).isSome = true) := by
  constructor
  · intro tags
    rw [countAt_buildTags]
    apply List.countP_congr
    intro a ha
    simp only [decide_eq_true_eq]
    exact sepSplit_eq_single_nil_iff a
  · intro tags ht
    exact buildTags_segment_node ht [[]] (by simp) ⟨[], rfl⟩

theorem empty_tag_counts_witness :
    (([] : List Char) ∈ [([] : List Char)]) ∧
    (nodeAt (buildTags [([] : List Char)]) [[]]).isSome = true := by
  have h : ([] : List Char) ∈ [([] : List Char)] := List.mem_singleton.mpr rfl
  exact ⟨h, empty_tag_counts.2 _ h⟩
